import Mathlib

/-!
Verification development for `scripts/research_bundle.py`.

The script scans a research directory, scores each admitted document by
keyword hits and recency, ranks the documents, and copies the top matches
into a flat bundle directory together with a manifest and an index.

Modelling choices, in order of appearance in the source:
* Python floats (timestamps, ages, scores) are modelled as exact rationals.
* A file seen by one run is a `FileEntry`: its path relative to the repo
  root, whether it is a regular file, its modification time in seconds,
  and its text, with `none` standing for a file whose bytes cannot be read
  (reading it raises an exception in Python).
* A compiled pattern is modelled by its match-count semantics: a function
  from a text to the number of matches `findall` returns on it.  Literal
  (non-regex) patterns are constructed explicitly below; `re.compile` for
  `--regex` mode is an unspecified parameter of the pipeline.
* `hashlib.sha1` is implemented concretely over the UTF-8 bytes.
* The local timestamp string produced by `strftime` is an input of the run.

The rational arithmetic of Batteries is restored to its default
reducibility so that concrete runs of the pipeline can be evaluated by
kernel reduction inside proofs.
-/

set_option allowUnsafeReducibility true in
attribute [semireducible] Rat.add Rat.mul Rat.sub Rat.inv

/-- One file discovered under the research root: path relative to the repo
root, whether it is a regular file, its modification time (seconds since
the epoch), and its text (`none` when reading it raises). -/
structure FileEntry where
  relPath : String
  isFile : Bool
  mtime : ℚ
  text : Option String
deriving Repr, DecidableEq

/-- Mirrors the `Candidate` dataclass of the script.  `path` is kept
relative to the repo root (the script stores the absolute path; the repo
root is a fixed prefix, so nothing is lost). -/
structure Candidate where
  path : String
  mtime : ℚ
  age_days : ℚ
  hits : ℕ
  score : ℚ
  out_name : String
deriving Repr, DecidableEq

/-- A compiled pattern, seen through its match-count semantics:
`p text` is the number of matches `p.findall(text)` would return. -/
abbrev Pattern := String → ℕ

/-- Python `str.split(sep)` for a one-character separator: pieces between
separators, empty pieces kept, `[""]` on the empty string. -/
def splitOnChar (sep : Char) : List Char → List (List Char)
  | [] => [[]]
  | c :: cs =>
    if c = sep then [] :: splitOnChar sep cs
    else
      match splitOnChar sep cs with
      | [] => [[c]]
      | t :: ts => (c :: t) :: ts

/-- Python `str.strip()`: drop whitespace from both ends. -/
def pyStrip (l : List Char) : List Char :=
  ((l.dropWhile Char.isWhitespace).reverse.dropWhile Char.isWhitespace).reverse

theorem length_dropWhile_le (p : Char → Bool) (l : List Char) :
    (l.dropWhile p).length ≤ l.length := by
  induction l with
  | nil => simp
  | cons c cs ih =>
    rw [List.dropWhile_cons]
    split
    · simp only [List.length_cons]
      omega
    · exact le_refl _

/-- One-pass splitter behind `pySplitWs`: `cur` is the current token,
reversed; a nonempty `cur` means the scan is inside a token. -/
def pySplitWsAux : List Char → List Char → List (List Char)
  | [], [] => []
  | [], cur => [cur.reverse]
  | c :: cs, cur =>
    if c.isWhitespace then
      if cur = [] then pySplitWsAux cs []
      else cur.reverse :: pySplitWsAux cs []
    else pySplitWsAux cs (c :: cur)

/-- Python `str.split()` with no argument: split on whitespace runs,
dropping empty pieces. -/
def pySplitWs (l : List Char) : List (List Char) := pySplitWsAux l []

/-- `_tokenize_query` of the script:
`[t.strip() for t in q.split() if t.strip()]`. -/
def tokenize_query (q : String) : List String :=
  (((pySplitWs q.data).map pyStrip).filter (fun t => t ≠ [])).map
    (fun t => (⟨t⟩ : String))

/-- Number of non-overlapping occurrences of a (nonempty) pattern in a
text, scanning left to right — the count `re.findall` produces for a
literal (escaped) pattern.  The last argument counts characters still to
skip because they were consumed by the previous match. -/
def countOccsAux (pat : List Char) : List Char → ℕ → ℕ
  | [], _ => 0
  | _ :: rest, Nat.succ k => countOccsAux pat rest k
  | c :: rest, 0 =>
    if pat.isPrefixOf (c :: rest) then 1 + countOccsAux pat rest (pat.length - 1)
    else countOccsAux pat rest 0

/-- Occurrence count of a pattern in a text; an empty pattern matches at
every position plus once at the end, as `re.findall` does. -/
def countOccs (pat text : List Char) : ℕ :=
  match pat with
  | [] => text.length + 1
  | _ :: _ => countOccsAux pat text 0

/-- The match-count semantics of `re.compile(re.escape(t), re.IGNORECASE)`:
case-insensitive literal occurrence counting. -/
def literalPattern (t : String) : Pattern :=
  fun text => countOccs (t.data.map Char.toLower) (text.data.map Char.toLower)

/-- Pattern construction of the script (lines 108-114): no pattern for an
empty query; a single compiled regex in `--regex` mode; otherwise one
case-insensitive literal pattern per token.  `regexCompile` stands for
`re.compile` with `re.IGNORECASE` on the raw query. -/
def buildPatterns (regexCompile : String → Pattern) (query : String)
    (regexMode : Bool) : List Pattern :=
  if query = "" then []
  else if regexMode then [regexCompile query]
  else (tokenize_query query).map literalPattern

/-- `_count_hits` of the script: 0 when reading the file raises, else the
sum of the match counts of all patterns over the text. -/
def count_hits (text : Option String) (patterns : List Pattern) : ℕ :=
  match text with
  | none => 0
  | some s => (patterns.map (fun p => p s)).sum

/-- The final component of a path (after the last `/`). -/
def baseNameChars (p : List Char) : List Char :=
  (p.reverse.takeWhile (fun c => c ≠ '/')).reverse

/-- `pathlib.Path(p).suffix`: the extension of the final component
including the dot, empty when the final component has no dot, starts with
its only dot, or ends with the dot. -/
def pySuffixChars (p : List Char) : List Char :=
  let name := baseNameChars p
  let rs := name.reverse
  let sufR := rs.takeWhile (fun c => c ≠ '.')
  if sufR.length = 0 then []
  else if sufR.length = rs.length then []
  else if sufR.length + 1 = rs.length then []
  else '.' :: sufR.reverse

/-- `pathlib.Path(name).stem` for a single-component name: the name with
its suffix removed. -/
def pyStemChars (name : List Char) : List Char :=
  name.take (name.length - (pySuffixChars name).length)

/-- Python `str.lower()` (ASCII letters, as the script only compares ASCII
extensions and slugs). -/
def lowerStr (s : String) : String := ⟨s.data.map Char.toLower⟩

/-- The extension allow-list of the script (line 102):
`{"." + e.strip().lstrip(".") for e in args.ext.split(",") if e.strip()}`,
kept as a list; only membership is ever used. -/
def parseExts (ext : String) : List String :=
  ((splitOnChar ',' ext.data).filter (fun e => pyStrip e ≠ [])).map
    (fun e => (⟨'.' :: (pyStrip e).dropWhile (fun c => c = '.')⟩ : String))

/-- SHA-1: left-rotation of a 32-bit word. -/
def rotl32 (n x : ℕ) : ℕ := ((x <<< n) ||| (x >>> (32 - n))) % 4294967296

/-- SHA-1 round constants. -/
def sha1k (t : ℕ) : ℕ :=
  if t < 20 then 1518500249
  else if t < 40 then 1859775393
  else if t < 60 then 2400959708
  else 3395469782

/-- SHA-1 round functions. -/
def sha1f (t b c d : ℕ) : ℕ :=
  if t < 20 then (b &&& c) ||| ((b ^^^ 4294967295) &&& d)
  else if t < 40 then b ^^^ c ^^^ d
  else if t < 60 then (b &&& c) ||| (b &&& d) ||| (c &&& d)
  else b ^^^ c ^^^ d

/-- The 16 big-endian 32-bit words of one 64-byte chunk. -/
def wordsOfChunk (chunk : List ℕ) : List ℕ :=
  (List.range 16).map (fun i =>
    (chunk.getD (4 * i) 0) * 16777216 + (chunk.getD (4 * i + 1) 0) * 65536 +
      (chunk.getD (4 * i + 2) 0) * 256 + chunk.getD (4 * i + 3) 0)

/-- Extend 16 schedule words to 80. -/
def sha1schedule (w16 : List ℕ) : List ℕ :=
  (List.range 64).foldl
    (fun w _ =>
      w ++ [rotl32 1 ((w.getD (w.length - 3) 0) ^^^ (w.getD (w.length - 8) 0) ^^^
        (w.getD (w.length - 14) 0) ^^^ (w.getD (w.length - 16) 0))])
    w16

/-- One SHA-1 round on the five-word state. -/
def sha1round (w : List ℕ) (st : ℕ × ℕ × ℕ × ℕ × ℕ) (t : ℕ) :
    ℕ × ℕ × ℕ × ℕ × ℕ :=
  let a := st.1
  let b := st.2.1
  let c := st.2.2.1
  let d := st.2.2.2.1
  let e := st.2.2.2.2
  let tmp := (rotl32 5 a + sha1f t b c d + e + sha1k t + w.getD t 0) % 4294967296
  (tmp, a, rotl32 30 b, c, d)

/-- Process one 64-byte chunk. -/
def sha1chunk (h : ℕ × ℕ × ℕ × ℕ × ℕ) (chunk : List ℕ) :
    ℕ × ℕ × ℕ × ℕ × ℕ :=
  let w := sha1schedule (wordsOfChunk chunk)
  let st := (List.range 80).foldl (sha1round w) h
  ((h.1 + st.1) % 4294967296, (h.2.1 + st.2.1) % 4294967296,
    (h.2.2.1 + st.2.2.1) % 4294967296, (h.2.2.2.1 + st.2.2.2.1) % 4294967296,
    (h.2.2.2.2 + st.2.2.2.2) % 4294967296)

/-- SHA-1 padding: `0x80`, zeros to 56 mod 64, then the bit length as
eight big-endian bytes. -/
def sha1pad (msg : List ℕ) : List ℕ :=
  let l := msg.length
  msg ++ [128] ++ List.replicate ((120 - (l + 1) % 64) % 64) 0 ++
    (List.range 8).map (fun i => ((8 * l) >>> (8 * (7 - i))) % 256)

/-- Split a byte list into 64-byte chunks. -/
def chunks64 (l : List ℕ) : List (List ℕ) :=
  if h : l = [] then [] else l.take 64 :: chunks64 (l.drop 64)
termination_by l.length
decreasing_by
  have hl : l.length ≠ 0 := fun hn => h (List.eq_nil_of_length_eq_zero hn)
  have := List.length_drop 64 l
  omega

/-- The 20 digest bytes of SHA-1 over a byte message. -/
def sha1bytes (msg : List ℕ) : List ℕ :=
  let hs := (chunks64 (sha1pad msg)).foldl sha1chunk
    (1732584193, 4023233417, 2562383102, 271733878, 3285377520)
  ([hs.1, hs.2.1, hs.2.2.1, hs.2.2.2.1, hs.2.2.2.2].map
    (fun h => (List.range 4).map (fun i => (h >>> (8 * (3 - i))) % 256))).flatten

/-- One lowercase hexadecimal digit. -/
def hexChar (n : ℕ) : Char := if n < 10 then Char.ofNat (48 + n) else Char.ofNat (87 + n)

/-- Lowercase hexadecimal rendering of a byte list. -/
def bytesToHex (bs : List ℕ) : List Char :=
  (bs.map (fun b => [hexChar (b / 16), hexChar (b % 16)])).flatten

/-- `hashlib.sha1(s.encode("utf-8")).hexdigest()`. -/
def sha1hex (s : String) : String :=
  ⟨bytesToHex (sha1bytes (s.toUTF8.toList.map (fun b => b.toNat)))⟩

/-- The flattening step of `_safe_flat_name`: every `/` becomes `__` and
every space becomes `_` (the two Python `str.replace` calls, fused: their
replacement texts contain no separator and no space, so they commute with
per-character processing). -/
def flattenChars : List Char → List Char
  | [] => []
  | c :: cs =>
    (if c = '/' then ['_', '_'] else if c = ' ' then ['_'] else [c]) ++ flattenChars cs

/-- `_safe_flat_name` of the script: flatten the relative path; if the
result exceeds 180 characters, replace it by the 80-character stem, two
underscores, the first 10 hex digits of the SHA-1 of the relative path,
and the original extension. -/
def safe_flat_name (rel : String) : String :=
  let s := flattenChars rel.data
  if 180 < s.length then
    ⟨(pyStemChars s).take 80 ++ ['_', '_'] ++ (sha1hex rel).data.take 10 ++
      pySuffixChars s⟩
  else ⟨s⟩

/-- The modification-time cutoff (line 105): `now - days * 86400`. -/
def cutoffOf (now : ℚ) (days : ℤ) : ℚ := now - (days : ℚ) * 86400

/-- The admission test of the enumeration loop (lines 118-125): regular
file, lowercased suffix in the allow-list, and modification time not
before the cutoff. -/
def admits (now : ℚ) (days : ℤ) (exts : List String) (f : FileEntry) : Bool :=
  f.isFile && exts.contains (lowerStr ⟨pySuffixChars f.relPath.data⟩) &&
    !(decide (f.mtime < cutoffOf now days))

/-- `age_days` of a candidate (line 126): `max(0, (now - mtime) / 86400)`. -/
def ageDaysOf (now mtime : ℚ) : ℚ := max 0 ((now - mtime) / 86400)

/-- The candidate built for one admitted file (lines 126-138). -/
def mkCandidate (now : ℚ) (days : ℤ) (patterns : List Pattern)
    (f : FileEntry) : Candidate :=
  let age_days := ageDaysOf now f.mtime
  let hits := if patterns.isEmpty then 0 else count_hits f.text patterns
  let recency := max 0 (1 - age_days / ((max 1 days : ℤ) : ℚ))
  let score := (hits : ℚ) * 100 + recency * 10
  { path := f.relPath, mtime := f.mtime, age_days := age_days, hits := hits,
    score := score, out_name := safe_flat_name f.relPath }

/-- The enumeration loop (lines 117-138): one candidate per admitted file,
in enumeration order. -/
def collectCandidates (now : ℚ) (days : ℤ) (patterns : List Pattern)
    (exts : List String) (files : List FileEntry) : List Candidate :=
  files.filterMap (fun f =>
    if admits now days exts f then some (mkCandidate now days patterns f) else none)

/-- The zero-hit filter (lines 141-142): applied only when at least one
pattern was built. -/
def filterHits (patterns : List Pattern) (cs : List Candidate) : List Candidate :=
  if patterns.isEmpty then cs else cs.filter (fun c => decide (0 < c.hits))

/-- The sort key comparison: `(score, mtime)` descending.  `keyGe a b`
says `a` may come no later than `b`. -/
def keyGe (a b : Candidate) : Bool :=
  decide (b.score < a.score) ||
    (decide (a.score = b.score) && decide (b.mtime ≤ a.mtime))

/-- Stable insertion into a descending list: the new element goes before
the first element it compares greater-or-equal to, hence after any
earlier-inserted element with an equal key. -/
def insertDesc (c : Candidate) : List Candidate → List Candidate
  | [] => [c]
  | d :: ds => if keyGe c d then c :: d :: ds else d :: insertDesc c ds

/-- The stable descending sort of line 144:
`candidates.sort(key=lambda c: (c.score, c.mtime), reverse=True)`.
Python's sort is stable; `sortDesc` is proved to be the (unique) stable
descending ordering below. -/
def sortDesc : List Candidate → List Candidate
  | [] => []
  | c :: cs => insertDesc c (sortDesc cs)

/-- Line 145: `selected = candidates[: max(0, args.limit)]`. -/
def selectTop (limit : ℤ) (cs : List Candidate) : List Candidate :=
  (sortDesc cs).take (max 0 limit).toNat

/-- The whole selection pipeline: enumerate, zero-hit filter, sort,
truncate. -/
def selectedOf (now : ℚ) (days limit : ℤ) (patterns : List Pattern)
    (exts : List String) (files : List FileEntry) : List Candidate :=
  selectTop limit (filterHits patterns (collectCandidates now days patterns exts files))

/-- The file names written inside one bundle directory, in write order:
the flattened copies, then `manifest.json`, then `index.md`. -/
def bundleFileNames (selected : List Candidate) : List String :=
  selected.map (fun c => c.out_name) ++ ["manifest.json", "index.md"]

/-- Is `c` in the character class `[a-zA-Z0-9._-]` of the slug regex? -/
def allowedSlugChar (c : Char) : Bool :=
  ('a' ≤ c && c ≤ 'z') || ('A' ≤ c && c ≤ 'Z') || ('0' ≤ c && c ≤ '9') ||
    c = '.' || c = '_' || c = '-'

/-- One-pass scanner behind `collapseRuns`: the flag records whether the
scan is inside a run of disallowed characters whose `-` was already
emitted. -/
def collapseRunsAux : List Char → Bool → List Char
  | [], _ => []
  | c :: cs, inRun =>
    if allowedSlugChar c then c :: collapseRunsAux cs false
    else if inRun then collapseRunsAux cs true
    else '-' :: collapseRunsAux cs true

/-- `re.sub(r"[^a-zA-Z0-9._-]+", "-", s)`: each maximal run of characters
outside the class becomes a single `-`. -/
def collapseRuns (l : List Char) : List Char := collapseRunsAux l false

/-- Python `str.strip("-")`: drop `-` from both ends. -/
def stripDashes (l : List Char) : List Char :=
  ((l.dropWhile (fun c => c = '-')).reverse.dropWhile (fun c => c = '-')).reverse

/-- The slug computation (lines 152-156): the sanitized `--name` when one
is given, else the sanitized, lowercased query truncated to 60
characters, else `bundle`; `bundle` also when the sanitized result is
empty. -/
def computeSlug (name query : String) : String :=
  if name ≠ "" then
    let s := stripDashes (collapseRuns name.data)
    if s = [] then "bundle" else ⟨s⟩
  else if query ≠ "" then
    let s := (stripDashes (collapseRuns (lowerStr query).data)).take 60
    if s = [] then "bundle" else ⟨s⟩
  else "bundle"

/-- The bundle directory (line 158): `out_root / f"{ts}__{slug}"`, with
`ts` the local `%Y%m%d-%H%M%S` stamp, an input of the model. -/
def bundleDirName (out ts name query : String) : String :=
  out ++ "/" ++ ts ++ "__" ++ computeSlug name query

/-- Is `c` alphanumeric (`[a-zA-Z0-9]`)?  Used only by the restatement of
the slug claim below. -/
def alnumChar (c : Char) : Bool :=
  ('a' ≤ c && c ≤ 'z') || ('A' ≤ c && c ≤ 'Z') || ('0' ≤ c && c ≤ '9')

/-- Collapse each maximal run of non-alphanumeric characters to one `-`
(the sanitization exactly as the claim words it). -/
def collapseAlnumRunsAux : List Char → Bool → List Char
  | [], _ => []
  | c :: cs, inRun =>
    if alnumChar c then c :: collapseAlnumRunsAux cs false
    else if inRun then collapseAlnumRunsAux cs true
    else '-' :: collapseAlnumRunsAux cs true

/-- The non-alphanumeric run collapse, started outside any run. -/
def collapseAlnumRuns (l : List Char) : List Char := collapseAlnumRunsAux l false

/-- The slug exactly as the claim words it: the explicit `--name` itself
when given; else the lowercased query with non-alphanumeric runs collapsed
to `-` and truncated to 60 characters; else the literal `bundle`, also
when the sanitized query is empty. -/
def slugClaimedSpec (name query : String) : String :=
  if name ≠ "" then name
  else if query ≠ "" then
    let s := (collapseAlnumRuns (lowerStr query).data).take 60
    if s = [] then "bundle" else ⟨s⟩
  else "bundle"

/-- The slug as amended: sanitizing collapses runs of characters outside
`[a-zA-Z0-9._-]` to `-` and strips `-` from both ends; the slug is the
sanitized `--name` when one is given, else the sanitized lowercased query
truncated to 60 characters, else `bundle`, with `bundle` also replacing
an empty sanitization result. -/
def slugAmendedSpec (name query : String) : String :=
  if name = "" then
    if query = "" then "bundle"
    else
      let s := (stripDashes (collapseRuns (lowerStr query).data)).take 60
      if s = [] then "bundle" else ⟨s⟩
  else
    let s := stripDashes (collapseRuns name.data)
    if s = [] then "bundle" else ⟨s⟩

/-- The command-line arguments of the script. -/
structure Args where
  query : String
  regexMode : Bool
  days : ℤ
  limit : ℤ
  researchDir : String
  out : String
  name : String
  ext : String
deriving Repr

/-- The environment one run observes: whether the research directory
resolves to an existing directory, the current time, the formatted local
timestamp, and the files enumerated below the research root. -/
structure RunInput where
  validDir : Bool
  now : ℚ
  ts : String
  files : List FileEntry
deriving Repr

/-- How one run ends: the exit-2 diagnostic for a bad research directory;
an uncaught exception while copying an unreadable selected file (the
paths written before the failure are recorded); or success, with the
bundle directory and every path written. -/
inductive RunOutcome where
  | invalidDir : RunOutcome
  | copyError : List String → String → RunOutcome
  | ok : String → List String → RunOutcome
deriving Repr, DecidableEq

/-- Is the file at relative path `p` readable (its bytes can be opened)? -/
def readableIn (files : List FileEntry) (p : String) : Bool :=
  match files.find? (fun f => f.relPath == p) with
  | some f => f.text.isSome
  | none => false

/-- The copy loop (lines 162-163): `shutil.copy2` each selected file into
the bundle directory in order; opening an unreadable source raises, which
the script does not catch.  Returns the copied destination paths and the
source path of the first failure, if any. -/
def copyPhase (files : List FileEntry) (bdir : String) :
    List Candidate → List String × Option String
  | [] => ([], none)
  | c :: cs =>
    if readableIn files c.path then
      let r := copyPhase files bdir cs
      ((bdir ++ "/" ++ c.out_name) :: r.1, r.2)
    else ([], some c.path)

/-- `main` of the script, from the directory check to the final writes.
The returned outcome records the exit behaviour and all written paths
(the two `mkdir`s, the copies, `manifest.json`, `index.md`). -/
def runMain (regexCompile : String → Pattern) (a : Args) (inp : RunInput) :
    RunOutcome :=
  if inp.validDir = false then RunOutcome.invalidDir
  else
    let patterns := buildPatterns regexCompile a.query a.regexMode
    let selected := selectedOf inp.now a.days a.limit patterns (parseExts a.ext) inp.files
    let bdir := bundleDirName a.out inp.ts a.name a.query
    let cp := copyPhase inp.files bdir selected
    match cp.2 with
    | some p => RunOutcome.copyError ([a.out, bdir] ++ cp.1) p
    | none =>
      RunOutcome.ok bdir
        ([a.out, bdir] ++ cp.1 ++ [bdir ++ "/manifest.json", bdir ++ "/index.md"])

/-- The process exit status for each outcome: 2 for the directory
diagnostic, 1 for an uncaught exception, 0 on success. -/
def exitCode : RunOutcome → ℕ
  | RunOutcome.invalidDir => 2
  | RunOutcome.copyError _ _ => 1
  | RunOutcome.ok _ _ => 0

/-- Every path a run writes. -/
def writtenPaths : RunOutcome → List String
  | RunOutcome.invalidDir => []
  | RunOutcome.copyError ws _ => ws
  | RunOutcome.ok _ ws => ws

/-- Does `p` name `s` or something below `s` (string-prefix test on
repo-relative paths)? -/
def underDir (s p : String) : Bool := s.data.isPrefixOf p.data

/-- The filesystem after the writes of one run: written paths get fresh
content (modelled as `some ""`), everything else is untouched. -/
def fsAfter (fs : String → Option String) (writes : List String) :
    String → Option String :=
  fun p => if writes.contains p then some "" else fs p

/-! ### General lemmas about the ranking step -/

/-- The comparison spelled out as an order on `(score, mtime)`. -/
theorem keyGe_iff (a b : Candidate) :
    keyGe a b = true ↔ (b.score < a.score ∨ (a.score = b.score ∧ b.mtime ≤ a.mtime)) := by
  simp [keyGe]

theorem keyGe_total (a b : Candidate) (h : keyGe a b = false) : keyGe b a = true := by
  rw [keyGe_iff]
  rw [← Bool.not_eq_true, keyGe_iff] at h
  push_neg at h
  rcases lt_trichotomy a.score b.score with hlt | heq | hgt
  · exact Or.inl hlt
  · exact Or.inr ⟨heq.symm, le_of_lt (h.2 heq)⟩
  · exact absurd hgt (not_lt.mpr h.1)

theorem keyGe_trans (a b c : Candidate) (hab : keyGe a b = true)
    (hbc : keyGe b c = true) : keyGe a c = true := by
  rw [keyGe_iff] at hab hbc ⊢
  rcases hab with h1 | ⟨h1, h1'⟩ <;> rcases hbc with h2 | ⟨h2, h2'⟩
  · exact Or.inl (lt_trans h2 h1)
  · exact Or.inl (h2 ▸ h1)
  · exact Or.inl (h1 ▸ h2)
  · exact Or.inr ⟨h1.trans h2, le_trans h2' h1'⟩

/-- Two candidates with the same `(score, mtime)` key compare `keyGe`. -/
theorem keyGe_of_keyEq (a b : Candidate) (h : (a.score, a.mtime) = (b.score, b.mtime)) :
    keyGe a b = true := by
  rw [keyGe_iff]
  have h1 : a.score = b.score := congrArg Prod.fst h
  have h2 : a.mtime = b.mtime := congrArg Prod.snd h
  exact Or.inr ⟨h1, le_of_eq h2.symm⟩

theorem insertDesc_perm (c : Candidate) (l : List Candidate) :
    (insertDesc c l).Perm (c :: l) := by
  induction l with
  | nil => simp [insertDesc]
  | cons d ds ih =>
    rw [insertDesc]
    split
    · exact List.Perm.refl _
    · exact ((ih.cons d).trans (List.Perm.swap c d ds))

theorem sortDesc_perm (l : List Candidate) : (sortDesc l).Perm l := by
  induction l with
  | nil => simp [sortDesc]
  | cons c cs ih => exact (insertDesc_perm c (sortDesc cs)).trans (ih.cons c)

theorem mem_insertDesc {x c : Candidate} {l : List Candidate} :
    x ∈ insertDesc c l ↔ x = c ∨ x ∈ l := by
  rw [(insertDesc_perm c l).mem_iff, List.mem_cons]

theorem mem_sortDesc {x : Candidate} {l : List Candidate} :
    x ∈ sortDesc l ↔ x ∈ l := (sortDesc_perm l).mem_iff

/-- Inserting into a descending list keeps it descending. -/
theorem pairwise_insertDesc (c : Candidate) (l : List Candidate)
    (hl : l.Pairwise (fun a b => keyGe a b = true)) :
    (insertDesc c l).Pairwise (fun a b => keyGe a b = true) := by
  induction l with
  | nil => simp [insertDesc]
  | cons d ds ih =>
    rw [insertDesc]
    rcases List.pairwise_cons.mp hl with ⟨hd, hds⟩
    split
    · rename_i hcd
      refine List.pairwise_cons.mpr ⟨?_, hl⟩
      intro x hx
      rcases List.mem_cons.mp hx with rfl | hx
      · exact hcd
      · exact keyGe_trans c d x hcd (hd x hx)
    · rename_i hcd
      refine List.pairwise_cons.mpr ⟨?_, ih hds⟩
      intro x hx
      rcases mem_insertDesc.mp hx with hxc | hx
      · rw [hxc]
        exact keyGe_total c d (Bool.eq_false_iff.mpr hcd)
      · exact hd x hx

theorem sortDesc_sorted (l : List Candidate) :
    (sortDesc l).Pairwise (fun a b => keyGe a b = true) := by
  induction l with
  | nil => simp [sortDesc]
  | cons c cs ih => exact pairwise_insertDesc c (sortDesc cs) ih

/-- Stability of the insertion, phrased through the key filter: the
candidates holding any fixed key appear in the same order before and
after inserting, with the new one first when it holds the key. -/
theorem filter_insertDesc (k : ℚ × ℚ) (c : Candidate) (l : List Candidate) :
    (insertDesc c l).filter (fun x => decide ((x.score, x.mtime) = k)) =
      if (c.score, c.mtime) = k then
        c :: l.filter (fun x => decide ((x.score, x.mtime) = k))
      else l.filter (fun x => decide ((x.score, x.mtime) = k)) := by
  induction l with
  | nil =>
    rw [insertDesc]
    by_cases hc : (c.score, c.mtime) = k
    · simp [List.filter, hc]
    · simp [List.filter, hc]
  | cons d ds ih =>
    rw [insertDesc]
    split
    · rename_i hcd
      by_cases hc : (c.score, c.mtime) = k
      · simp [List.filter_cons, hc]
      · simp [List.filter_cons, hc]
    · rename_i hcd
      have hne : ¬ ((c.score, c.mtime) = k ∧ (d.score, d.mtime) = k) := by
        rintro ⟨h1, h2⟩
        exact hcd (keyGe_of_keyEq c d (h1.trans h2.symm))
      by_cases hc : (c.score, c.mtime) = k
      · have hd : ¬ (d.score, d.mtime) = k := fun hd => hne ⟨hc, hd⟩
        simp [List.filter_cons, hd, ih, hc]
      · by_cases hd : (d.score, d.mtime) = k
        · simp [List.filter_cons, hd, ih, hc]
        · simp [List.filter_cons, hd, ih, hc]

/-- Stability of the whole sort: for every key, the sublist of candidates
with that key is unchanged. -/
theorem sortDesc_stable (k : ℚ × ℚ) (l : List Candidate) :
    (sortDesc l).filter (fun x => decide ((x.score, x.mtime) = k)) =
      l.filter (fun x => decide ((x.score, x.mtime) = k)) := by
  induction l with
  | nil => simp [sortDesc]
  | cons c cs ih =>
    rw [sortDesc, filter_insertDesc, List.filter_cons]
    by_cases hc : (c.score, c.mtime) = k
    · simp [hc, ih]
    · simp [hc, ih]

/-! ### General lemmas about the pipeline -/

/-- Membership in the enumerated candidate list. -/
theorem mem_collectCandidates {c : Candidate} {now : ℚ} {days : ℤ}
    {patterns : List Pattern} {exts : List String} {files : List FileEntry} :
    c ∈ collectCandidates now days patterns exts files ↔
      ∃ f ∈ files, admits now days exts f = true ∧ c = mkCandidate now days patterns f := by
  simp only [collectCandidates, List.mem_filterMap]
  constructor
  · rintro ⟨f, hf, hsome⟩
    by_cases ha : admits now days exts f = true
    · rw [if_pos ha] at hsome
      exact ⟨f, hf, ha, (Option.some_inj.mp hsome).symm⟩
    · rw [if_neg ha] at hsome
      cases hsome
  · rintro ⟨f, hf, ha, rfl⟩
    exact ⟨f, hf, by rw [if_pos ha]⟩

/-- Everything selected was a candidate that survived the zero-hit
filter. -/
theorem mem_of_mem_selectedOf {c : Candidate} {now : ℚ} {days limit : ℤ}
    {patterns : List Pattern} {exts : List String} {files : List FileEntry}
    (h : c ∈ selectedOf now days limit patterns exts files) :
    c ∈ filterHits patterns (collectCandidates now days patterns exts files) := by
  have h1 : c ∈ sortDesc (filterHits patterns (collectCandidates now days patterns exts files)) :=
    List.take_subset _ _ h
  exact mem_sortDesc.mp h1

/-- When every selected file is readable, the copy loop finishes without
an error. -/
theorem copyPhase_no_error (files : List FileEntry) (bdir : String)
    (sel : List Candidate) (h : ∀ c ∈ sel, readableIn files c.path = true) :
    (copyPhase files bdir sel).2 = none := by
  induction sel with
  | nil => rfl
  | cons c cs ih =>
    rw [copyPhase, if_pos (h c (List.mem_cons_self c cs))]
    exact ih (fun d hd => h d (List.mem_cons_of_mem c hd))

/-- Lowercasing never produces a basic latin capital. -/
theorem toLower_not_upper (c : Char) : (Char.toLower c).isUpper = false := by
  rw [Char.toLower]
  split
  · rename_i h
    obtain ⟨hb1, hb2⟩ : 97 ≤ c.toNat + 32 ∧ c.toNat + 32 ≤ 122 := ⟨by omega, by omega⟩
    generalize hm : c.toNat + 32 = m at hb1 hb2 ⊢
    interval_cases m <;> decide
  · rename_i h
    rw [Char.isUpper]
    by_contra hcon
    rw [Bool.not_eq_false, Bool.and_eq_true] at hcon
    obtain ⟨h1, h2⟩ := hcon
    have p1 : (65 : UInt32) ≤ c.val := of_decide_eq_true h1
    have p2 : c.val ≤ (90 : UInt32) := of_decide_eq_true h2
    have n1 : 65 ≤ c.toNat := UInt32.le_toNat_of_le (by decide) p1
    have n2 : c.toNat ≤ 90 := UInt32.toNat_le_of_le (by decide) p2
    exact h ⟨n1, n2⟩

/-- `contains` on a list of strings is membership. -/
theorem contains_iff_mem (l : List String) (a : String) :
    l.contains a = true ↔ a ∈ l := List.elem_iff

/-- A lowercased string never equals a string holding a capital letter. -/
theorem lowerStr_ne_of_upper (e : String) (hup : ∃ ch ∈ e.data, ch.isUpper = true) :
    ∀ s : String, lowerStr s ≠ e := by
  intro s heq
  obtain ⟨ch, hmem, hch⟩ := hup
  rw [← heq] at hmem
  replace hmem : ch ∈ s.data.map Char.toLower := hmem
  obtain ⟨d, _, rfl⟩ := List.mem_map.mp hmem
  rw [toLower_not_upper d] at hch
  cases hch

/-- Flattening a path starting with a separator. -/
theorem flattenChars_cons_slash (cs : List Char) :
    flattenChars ('/' :: cs) = '_' :: '_' :: flattenChars cs := by
  simp [flattenChars]

/-- Flattening a path starting with any other non-space character. -/
theorem flattenChars_cons_other (c : Char) (cs : List Char) (hc : c ≠ '/')
    (hcs : c ≠ ' ') : flattenChars (c :: cs) = c :: flattenChars cs := by
  simp [flattenChars, hc, hcs]

/-- Flattening is injective on paths holding neither underscores nor
spaces. -/
theorem flattenChars_inj (l1 : List Char) :
    ∀ l2 : List Char, '_' ∉ l1 → ' ' ∉ l1 → '_' ∉ l2 → ' ' ∉ l2 →
      flattenChars l1 = flattenChars l2 → l1 = l2 := by
  induction l1 with
  | nil =>
    intro l2 _ _ h2u h2s h
    cases l2 with
    | nil => rfl
    | cons d ds =>
      exfalso
      have hds : d ≠ ' ' := fun hh => h2s (hh ▸ List.mem_cons_self d ds)
      by_cases hd : d = '/'
      · rw [hd, flattenChars_cons_slash] at h
        cases h
      · rw [flattenChars_cons_other d ds hd hds] at h
        cases h
  | cons c cs ih =>
    intro l2 h1u h1s h2u h2s h
    have hcu : c ≠ '_' := fun hh => h1u (hh ▸ List.mem_cons_self c cs)
    have hcs : c ≠ ' ' := fun hh => h1s (hh ▸ List.mem_cons_self c cs)
    have h1u' : '_' ∉ cs := fun hh => h1u (List.mem_cons_of_mem c hh)
    have h1s' : ' ' ∉ cs := fun hh => h1s (List.mem_cons_of_mem c hh)
    cases l2 with
    | nil =>
      exfalso
      by_cases hc : c = '/'
      · rw [hc, flattenChars_cons_slash] at h
        cases h
      · rw [flattenChars_cons_other c cs hc hcs] at h
        cases h
    | cons d ds =>
      have hdu : d ≠ '_' := fun hh => h2u (hh ▸ List.mem_cons_self d ds)
      have hds : d ≠ ' ' := fun hh => h2s (hh ▸ List.mem_cons_self d ds)
      have h2u' : '_' ∉ ds := fun hh => h2u (List.mem_cons_of_mem d hh)
      have h2s' : ' ' ∉ ds := fun hh => h2s (List.mem_cons_of_mem d hh)
      by_cases hc : c = '/' <;> by_cases hd : d = '/'
      · rw [hc, hd]
        rw [hc, flattenChars_cons_slash, hd, flattenChars_cons_slash] at h
        injection h with _ h'
        injection h' with _ h''
        rw [ih ds h1u' h1s' h2u' h2s' h'']
      · exfalso
        rw [hc, flattenChars_cons_slash, flattenChars_cons_other d ds hd hds] at h
        injection h with h1 _
        exact hdu h1.symm
      · exfalso
        rw [flattenChars_cons_other c cs hc hcs, hd, flattenChars_cons_slash] at h
        injection h with h1 _
        exact hcu h1
      · rw [flattenChars_cons_other c cs hc hcs,
          flattenChars_cons_other d ds hd hds] at h
        injection h with h1 h2
        rw [h1, ih ds h1u' h1s' h2u' h2s' h2]

/-- Dropping a failing prefix changes nothing when no element passes. -/
theorem dropWhile_eq_self_of_none (p : Char → Bool) (l : List Char)
    (h : ∀ x ∈ l, p x = false) : l.dropWhile p = l := by
  cases l with
  | nil => rfl
  | cons c cs =>
    rw [List.dropWhile_cons, if_neg]
    rw [h c (List.mem_cons_self c cs)]
    simp

/-- Stripping whitespace is the identity on all-non-whitespace tokens. -/
theorem pyStrip_eq_self (t : List Char) (h : ∀ ch ∈ t, ch.isWhitespace = false) :
    pyStrip t = t := by
  rw [pyStrip, dropWhile_eq_self_of_none _ _ h, dropWhile_eq_self_of_none, List.reverse_reverse]
  intro x hx
  exact h x (List.mem_reverse.mp hx)

/-- Every token the splitter emits from a clean state is nonempty and
whitespace-free. -/
theorem pySplitWsAux_tokens (l : List Char) :
    ∀ cur : List Char, (∀ ch ∈ cur, ch.isWhitespace = false) →
      ∀ t ∈ pySplitWsAux l cur, t ≠ [] ∧ ∀ ch ∈ t, ch.isWhitespace = false := by
  induction l with
  | nil =>
    intro cur hcur t ht
    cases cur with
    | nil => cases ht
    | cons c cs =>
      rw [show pySplitWsAux [] (c :: cs) = [(c :: cs).reverse] from rfl] at ht
      rcases List.mem_singleton.mp ht with rfl
      refine ⟨by simp, ?_⟩
      intro ch hch
      exact hcur ch (List.mem_reverse.mp hch)
  | cons c cs ih =>
    intro cur hcur t ht
    rw [pySplitWsAux] at ht
    by_cases hw : c.isWhitespace
    · rw [if_pos hw] at ht
      by_cases hcure : cur = []
      · rw [if_pos hcure] at ht
        exact ih [] (by intro ch hch; cases hch) t ht
      · rw [if_neg hcure] at ht
        rcases List.mem_cons.mp ht with rfl | ht'
        · refine ⟨by simpa using hcure, ?_⟩
          intro ch hch
          exact hcur ch (List.mem_reverse.mp hch)
        · exact ih [] (by intro ch hch; cases hch) t ht'
    · rw [if_neg hw] at ht
      refine ih (c :: cur) ?_ t ht
      intro ch hch
      rcases List.mem_cons.mp hch with rfl | hch'
      · exact Bool.eq_false_iff.mpr hw
      · exact hcur ch hch'

/-- The splitter emits at least one token when the input holds a
non-whitespace character (or the scan is already inside a token). -/
theorem pySplitWsAux_ne_nil (l : List Char) :
    ∀ cur : List Char,
      (cur ≠ [] ∨ ∃ ch ∈ l, ch.isWhitespace = false) → pySplitWsAux l cur ≠ [] := by
  induction l with
  | nil =>
    intro cur hcur
    rcases hcur with hcur | ⟨ch, hch, _⟩
    · cases cur with
      | nil => exact absurd rfl hcur
      | cons c cs =>
        intro hh
        rw [show pySplitWsAux [] (c :: cs) = [(c :: cs).reverse] from rfl] at hh
        cases hh
    · cases hch
  | cons c cs ih =>
    intro cur hcur
    rw [pySplitWsAux]
    by_cases hw : c.isWhitespace
    · rw [if_pos hw]
      by_cases hcure : cur = []
      · rw [if_pos hcure]
        apply ih []
        rcases hcur with hcur | ⟨ch, hch, hchw⟩
        · rw [hcure] at hcur
          exact absurd rfl hcur
        · rcases List.mem_cons.mp hch with rfl | hch'
          · rw [hw] at hchw
            cases hchw
          · exact Or.inr ⟨ch, hch', hchw⟩
      · rw [if_neg hcure]
        simp
    · rw [if_neg hw]
      apply ih (c :: cur)
      exact Or.inl (by simp)

/-- A query with any non-whitespace character tokenizes to a nonempty
list. -/
theorem tokenize_query_ne_nil (q : String)
    (h : ∃ ch ∈ q.data, ch.isWhitespace = false) : tokenize_query q ≠ [] := by
  rw [tokenize_query]
  intro hnil
  rw [List.map_eq_nil_iff, List.filter_eq_nil_iff] at hnil
  have hne := pySplitWsAux_ne_nil q.data [] (Or.inr h)
  rw [pySplitWs] at *
  cases htoks : pySplitWsAux q.data [] with
  | nil => exact hne htoks
  | cons t ts =>
    obtain ⟨htne, htws⟩ := pySplitWsAux_tokens q.data []
      (by intro ch hch; cases hch) t (by rw [htoks]; exact List.mem_cons_self t ts)
    have hmem : pyStrip t ∈ (pySplitWsAux q.data []).map pyStrip := by
      rw [htoks]
      exact List.mem_map_of_mem pyStrip (List.mem_cons_self t ts)
    have := hnil (pyStrip t) hmem
    rw [pyStrip_eq_self t htws] at this
    exact this (decide_eq_true htne)

/-- Surviving the zero-hit filter means having been a candidate. -/
theorem mem_of_mem_filterHits {c : Candidate} {patterns : List Pattern}
    {cs : List Candidate} (h : c ∈ filterHits patterns cs) : c ∈ cs := by
  rw [filterHits] at h
  split at h
  · exact h
  · exact List.mem_of_mem_filter h

/-! ### The claims -/

/-- Claim C1: for every candidate file admitted during enumeration, the
computed score equals `hits * 100 + recency * 10`, where
`age_days = max(0, (now - mtime) / 86400)`,
`recency = max(0, 1 - age_days / max(1, days))`, and `hits` is the total
count of case-insensitive pattern matches over the full file text (0 when
the query is empty). -/
theorem score_matches_spec (now : ℚ) (days : ℤ) (q : String)
    (rc : String → Pattern) (exts : List String) (files : List FileEntry)
    (f : FileEntry) (hf : f ∈ files) (hadm : admits now days exts f = true) :
    mkCandidate now days (buildPatterns rc q false) f ∈
        collectCandidates now days (buildPatterns rc q false) exts files
    ∧ (mkCandidate now days (buildPatterns rc q false) f).score =
        ((mkCandidate now days (buildPatterns rc q false) f).hits : ℚ) * 100 +
          max 0 (1 - max 0 ((now - f.mtime) / 86400) / ((max 1 days : ℤ) : ℚ)) * 10
    ∧ (∀ txt : String, f.text = some txt →
        (mkCandidate now days (buildPatterns rc q false) f).hits =
          ((tokenize_query q).map (fun t => literalPattern t txt)).sum)
    ∧ (q = "" → (mkCandidate now days (buildPatterns rc q false) f).hits = 0) := by
  refine ⟨mem_collectCandidates.mpr ⟨f, hf, hadm, rfl⟩, ?_, ?_, ?_⟩
  · simp only [mkCandidate, ageDaysOf]
  · intro txt htxt
    by_cases hq : q = ""
    · subst hq
      simp [mkCandidate, buildPatterns, show tokenize_query "" = [] from rfl]
    · simp only [mkCandidate, buildPatterns, if_neg hq, if_neg (Bool.false_ne_true)]
      cases htoks : tokenize_query q with
      | nil => simp [htoks, count_hits]
      | cons t ts =>
        rw [if_neg (by simp [htoks])]
        rw [htxt, count_hits, List.map_map]
        rfl
  · intro hq
    subst hq
    simp [mkCandidate, buildPatterns]

/-- Claim C1 witness: a concrete admitted file with a two-term query. -/
theorem score_matches_spec_witness :
    (mkCandidate 0 365 (buildPatterns (fun _ => fun _ => 0) "irsa s3" false)
        ⟨"research/a.md", true, 0, some "irsa s3 irsa"⟩).hits =
      ((tokenize_query "irsa s3").map
        (fun t => literalPattern t "irsa s3 irsa")).sum :=
  (score_matches_spec 0 365 "irsa s3" (fun _ => fun _ => 0) [".md"]
    [⟨"research/a.md", true, 0, some "irsa s3 irsa"⟩]
    ⟨"research/a.md", true, 0, some "irsa s3 irsa"⟩
    (by decide) (by decide)).2.2.1 "irsa s3 irsa" rfl

/-- Claim C2: the selection is the first `max(0, limit)` elements of the
candidates sorted descending by `(score, mtime)` — a sort that is a
permutation, is descending with score ties broken by newer modification
time, and is stable (candidates with equal `(score, mtime)` keep their
enumeration order); a zero or negative limit yields an empty selection
and a bundle holding only `manifest.json` and `index.md`. -/
theorem selection_sort_spec (limit : ℤ) (cands : List Candidate) :
    selectTop limit cands = (sortDesc cands).take (max 0 limit).toNat
    ∧ (sortDesc cands).Pairwise (fun a b =>
        b.score < a.score ∨ (a.score = b.score ∧ b.mtime ≤ a.mtime))
    ∧ (sortDesc cands).Perm cands
    ∧ (∀ k : ℚ × ℚ,
        (sortDesc cands).filter (fun c => decide ((c.score, c.mtime) = k)) =
          cands.filter (fun c => decide ((c.score, c.mtime) = k)))
    ∧ (limit ≤ 0 → selectTop limit cands = [] ∧
        bundleFileNames (selectTop limit cands) = ["manifest.json", "index.md"]) := by
  refine ⟨rfl, ?_, sortDesc_perm cands, fun k => sortDesc_stable k cands, ?_⟩
  · exact (sortDesc_sorted cands).imp (fun h => (keyGe_iff _ _).mp h)
  · intro hlim
    have hmax : max 0 limit = 0 := max_eq_left hlim
    have hsel : selectTop limit cands = [] := by
      rw [selectTop, hmax]
      rfl
    exact ⟨hsel, by rw [hsel]; rfl⟩

/-- Claim C2 witness: a negative limit on a one-candidate list. -/
theorem selection_sort_spec_witness :
    selectTop (-1) [⟨"research/a.md", 0, 0, 0, 10, "research__a.md"⟩] = [] ∧
      bundleFileNames (selectTop (-1) [⟨"research/a.md", 0, 0, 0, 10, "research__a.md"⟩]) =
        ["manifest.json", "index.md"] :=
  (selection_sort_spec (-1) [⟨"research/a.md", 0, 0, 0, 10, "research__a.md"⟩]).2.2.2.2
    (by decide)

/-- Claim C3 counterexample: the query `" "` is a non-empty string, yet it
tokenizes to no pattern, so the zero-hit filter is skipped and a candidate
with `hits = 0` is selected. -/
theorem nonempty_query_zero_hit_cex :
    (" " : String) ≠ ""
    ∧ (selectedOf 0 365 50 (buildPatterns (fun _ => fun _ => 0) " " false) [".md"]
        [⟨"research/a.md", true, 0, some "hello"⟩]).map (fun c => c.hits) = [0] := by
  exact ⟨by decide, by decide⟩

/-- Claim C3 amended: for every query that yields at least one search
pattern — in literal mode, every query holding a non-whitespace
character — every selected candidate has `hits > 0`. -/
theorem selected_hits_positive (now : ℚ) (days limit : ℤ)
    (patterns : List Pattern) (exts : List String) (files : List FileEntry)
    (hp : patterns ≠ []) :
    (∀ c ∈ selectedOf now days limit patterns exts files, 0 < c.hits)
    ∧ (∀ q : String, ∀ rc : String → Pattern,
        (∃ ch ∈ q.data, ch.isWhitespace = false) → buildPatterns rc q false ≠ []) := by
  constructor
  · intro c hc
    have h1 := mem_of_mem_selectedOf hc
    rw [filterHits, if_neg (by simpa using hp)] at h1
    have := List.of_mem_filter h1
    exact of_decide_eq_true this
  · intro q rc hch
    have hq : q ≠ "" := by
      intro hq
      subst hq
      obtain ⟨ch, hmem, _⟩ := hch
      cases hmem
    rw [buildPatterns, if_neg hq, if_neg (Bool.false_ne_true)]
    intro hmap
    exact tokenize_query_ne_nil q hch (List.map_eq_nil_iff.mp hmap)

/-- Claim C3 amended, witness: one pattern, one matching file. -/
theorem selected_hits_positive_witness :
    (∀ c ∈ selectedOf 0 365 50 [literalPattern "a"] [".md"]
        [⟨"research/a.md", true, 0, some "aaa"⟩], 0 < c.hits)
    ∧ (∀ q : String, ∀ rc : String → Pattern,
        (∃ ch ∈ q.data, ch.isWhitespace = false) →
          buildPatterns rc q false ≠ []) :=
  selected_hits_positive 0 365 50 [literalPattern "a"] [".md"]
    [⟨"research/a.md", true, 0, some "aaa"⟩] (List.cons_ne_nil _ _)

/-- Claim C4 counterexample: with the negative day-window `-2` and a file
whose modification time lies in the future, `age_days = 0 > -2` holds,
yet the file is admitted and becomes a candidate. -/
theorem stale_exclusion_cex :
    admits 0 (-2) [".md"] ⟨"research/future.md", true, 200000, some ""⟩ = true
    ∧ ageDaysOf 0 200000 = 0
    ∧ ((-2 : ℤ) : ℚ) < ageDaysOf 0 200000
    ∧ collectCandidates 0 (-2) [] [".md"]
        [⟨"research/future.md", true, 200000, some ""⟩] ≠ [] := by
  exact ⟨by decide, by decide, by decide, by decide⟩

/-- Claim C4 amended: a file becomes a candidate iff it is a regular file,
its lowercased suffix is in the allow-list, and its modification time is
at least `now - D*86400`; for every nonnegative day-window `D`, a file
with `age_days > D` is excluded; an inadmissible file contributes no
candidate. -/
theorem admission_characterization (now : ℚ) (days : ℤ) (exts : List String)
    (f : FileEntry) :
    (admits now days exts f = true ↔
      (f.isFile = true ∧ lowerStr ⟨pySuffixChars f.relPath.data⟩ ∈ exts ∧
        now - (days : ℚ) * 86400 ≤ f.mtime))
    ∧ (0 ≤ days → (days : ℚ) < ageDaysOf now f.mtime →
        admits now days exts f = false)
    ∧ (admits now days exts f = false → ∀ patterns files,
        collectCandidates now days patterns exts (f :: files) =
          collectCandidates now days patterns exts files) := by
  refine ⟨?_, ?_, ?_⟩
  · rw [admits, cutoffOf]
    rw [Bool.and_eq_true, Bool.and_eq_true]
    rw [Bool.not_eq_true', decide_eq_false_iff_not, not_lt]
    rw [contains_iff_mem]
    tauto
  · intro hd hage
    have hpos : (0 : ℚ) ≤ (days : ℚ) := by exact_mod_cast hd
    rw [ageDaysOf] at hage
    have hx : (days : ℚ) < (now - f.mtime) / 86400 := by
      rcases le_or_lt ((now - f.mtime) / 86400) 0 with hle | hlt
      · rw [max_eq_left hle] at hage
        exact absurd hage (not_lt.mpr hpos)
      · rwa [max_eq_right hlt.le] at hage
    have hmt : f.mtime < now - (days : ℚ) * 86400 := by
      have h86 : (0 : ℚ) < 86400 := by norm_num
      rw [lt_div_iff₀ h86] at hx
      linarith
    rw [admits, cutoffOf]
    rw [decide_eq_true hmt]
    simp
  · intro hadm patterns files
    rw [collectCandidates, collectCandidates, List.filterMap_cons, hadm]
    simp

/-- Claim C4 amended, witness: a two-year-old file is excluded from a
365-day window. -/
theorem admission_characterization_witness :
    admits 0 365 [".md"] ⟨"research/old.md", true, -63072000, some ""⟩ = false :=
  (admission_characterization 0 365 [".md"]
    ⟨"research/old.md", true, -63072000, some ""⟩).2.1 (by decide) (by decide)

/-- Claim C5 counterexample: the two distinct relative paths
`research/a/x.md` and `research/a__x.md` are both selected into one
bundle and flatten to the same output name, so one copy overwrites the
other. -/
theorem flat_name_collision_cex :
    ("research/a/x.md" : String) ≠ "research/a__x.md"
    ∧ (selectedOf 0 365 50 [] [".md"]
        [⟨"research/a/x.md", true, 0, some ""⟩,
         ⟨"research/a__x.md", true, 0, some ""⟩]).map (fun c => c.path) =
        ["research/a/x.md", "research/a__x.md"]
    ∧ (selectedOf 0 365 50 [] [".md"]
        [⟨"research/a/x.md", true, 0, some ""⟩,
         ⟨"research/a__x.md", true, 0, some ""⟩]).map (fun c => c.out_name) =
        ["research__a__x.md", "research__a__x.md"] := by
  exact ⟨by decide, by decide, by decide⟩

/-- Every selected candidate carries the flattened name of its own path. -/
theorem selected_out_name (now : ℚ) (days limit : ℤ) (patterns : List Pattern)
    (exts : List String) (files : List FileEntry) (c : Candidate)
    (hc : c ∈ selectedOf now days limit patterns exts files) :
    c.out_name = safe_flat_name c.path := by
  have h1 := mem_of_mem_filterHits (mem_of_mem_selectedOf hc)
  obtain ⟨f, _, _, rfl⟩ := mem_collectCandidates.mp h1
  rfl

/-- Claim C5 amended: the flattened output names of the selected files are
pairwise distinct whenever the selected relative paths are pairwise
distinct, hold neither `_` nor a space, and flatten to at most 180
characters (outside those conditions the counterexample above shows a
collision). -/
theorem out_names_pairwise_distinct (now : ℚ) (days limit : ℤ)
    (patterns : List Pattern) (exts : List String) (files : List FileEntry)
    (hdist : (selectedOf now days limit patterns exts files).Pairwise
      (fun a b => a.path ≠ b.path))
    (hclean : ∀ c ∈ selectedOf now days limit patterns exts files,
      '_' ∉ c.path.data ∧ ' ' ∉ c.path.data ∧
        (flattenChars c.path.data).length ≤ 180) :
    (selectedOf now days limit patterns exts files).Pairwise
      (fun a b => a.out_name ≠ b.out_name) := by
  refine hdist.imp_of_mem ?_
  intro a b ha hb hne heq
  obtain ⟨hau, has, hal⟩ := hclean a ha
  obtain ⟨hbu, hbs, hbl⟩ := hclean b hb
  rw [selected_out_name now days limit patterns exts files a ha,
    selected_out_name now days limit patterns exts files b hb] at heq
  rw [safe_flat_name, safe_flat_name] at heq
  rw [if_neg (not_lt.mpr hal), if_neg (not_lt.mpr hbl)] at heq
  have hdata : flattenChars a.path.data = flattenChars b.path.data := by
    injection heq
  have hpaths := flattenChars_inj a.path.data b.path.data hau has hbu hbs hdata
  exact hne (congrArg String.mk hpaths)

/-- Claim C5 amended, witness: two clean distinct paths keep distinct
output names. -/
theorem out_names_pairwise_distinct_witness :
    (selectedOf 0 365 50 [] [".md"]
      [⟨"research/a.md", true, 0, some ""⟩,
       ⟨"research/b.md", true, 0, some ""⟩]).Pairwise
        (fun a b => a.out_name ≠ b.out_name) :=
  out_names_pairwise_distinct 0 365 50 [] [".md"]
    [⟨"research/a.md", true, 0, some ""⟩, ⟨"research/b.md", true, 0, some ""⟩]
    (by decide) (by decide)

/-- Claim C6 counterexample: under a valid research directory holding one
`.md` file whose bytes cannot be read, a run with an empty query selects
that file (its zero hit count is not filtered because no pattern was
built), the copy raises, and the process exits with status 1, not 0. -/
theorem valid_dir_nonzero_exit_cex :
    (⟨true, 0, "20260101-000000", [⟨"research/u.md", true, 0, none⟩]⟩ : RunInput).validDir = true
    ∧ exitCode (runMain (fun _ => fun _ => 0)
        ⟨"", false, 365, 50, "research", "notebook-bundles", "", "md,mdx"⟩
        ⟨true, 0, "20260101-000000", [⟨"research/u.md", true, 0, none⟩]⟩) = 1 := by
  exact ⟨rfl, by decide⟩

/-- Claim C6 amended: the run exits with status 2 exactly when the research
directory is invalid; under a valid research directory every run whose
selected files are all readable — in particular every run with an empty
result set, and every run in which unreadable files are filtered out by an
active query — exits with status 0.  (A selected file that cannot be read
aborts the copy phase with an uncaught-exception exit, as the
counterexample shows.) -/
theorem exit_code_spec (rc : String → Pattern) (a : Args) (inp : RunInput) :
    (exitCode (runMain rc a inp) = 2 ↔ inp.validDir = false)
    ∧ (inp.validDir = true →
        (∀ c ∈ selectedOf inp.now a.days a.limit
            (buildPatterns rc a.query a.regexMode) (parseExts a.ext) inp.files,
          readableIn inp.files c.path = true) →
        exitCode (runMain rc a inp) = 0) := by
  constructor
  · by_cases hv : inp.validDir = false
    · rw [runMain, if_pos hv]
      simp [exitCode, hv]
    · rw [runMain, if_neg hv]
      cases hcp : (copyPhase inp.files
          (bundleDirName a.out inp.ts a.name a.query)
          (selectedOf inp.now a.days a.limit
            (buildPatterns rc a.query a.regexMode) (parseExts a.ext) inp.files)).2 with
      | none => simp [hcp, exitCode, hv]
      | some p => simp [hcp, exitCode, hv]
  · intro hv hread
    rw [runMain, if_neg (by rw [hv]; simp)]
    have hnone := copyPhase_no_error inp.files
      (bundleDirName a.out inp.ts a.name a.query)
      (selectedOf inp.now a.days a.limit
        (buildPatterns rc a.query a.regexMode) (parseExts a.ext) inp.files) hread
    simp [hnone, exitCode]

/-- Claim C6 amended, witness: a valid directory with one readable file in
the window exits with 0. -/
theorem exit_code_spec_witness :
    exitCode (runMain (fun _ => fun _ => 0)
      ⟨"", false, 365, 50, "research", "notebook-bundles", "", "md,mdx"⟩
      ⟨true, 0, "20260101-000000", [⟨"research/a.md", true, 0, some "hi"⟩]⟩) = 0 :=
  (exit_code_spec (fun _ => fun _ => 0)
    ⟨"", false, 365, 50, "research", "notebook-bundles", "", "md,mdx"⟩
    ⟨true, 0, "20260101-000000", [⟨"research/a.md", true, 0, some "hi"⟩]⟩).2
    rfl (by decide)

/-- Claim C7 counterexample: with `--name "a b"` the claim prescribes the
slug `a b` (the explicit name), but the script sanitizes the name too and
produces `a-b`; the bundle directory differs accordingly. -/
theorem slug_cex :
    computeSlug "a b" "" = "a-b"
    ∧ slugClaimedSpec "a b" "" = "a b"
    ∧ computeSlug "a b" "" ≠ slugClaimedSpec "a b" ""
    ∧ bundleDirName "notebook-bundles" "20260101-000000" "a b" "" =
        "notebook-bundles/20260101-000000__a-b" := by
  exact ⟨by decide, by decide, by decide, by decide⟩

/-- Claim C7 amended: the bundle directory is
`<out-root>/<ts>__<slug>` with `ts` the `%Y%m%d-%H%M%S` local stamp, where
the slug is the sanitized `--name` (runs outside `[a-zA-Z0-9._-]`
collapsed to `-`, then `-` stripped from both ends) when a name is given,
else the sanitized lowercased query truncated to 60 characters, else
`bundle` — also used whenever sanitizing leaves nothing.  The slug is
never empty, and with no `--name` it never exceeds 60 characters. -/
theorem bundle_dir_naming (out ts name query : String) :
    bundleDirName out ts name query =
      out ++ "/" ++ ts ++ "__" ++ slugAmendedSpec name query
    ∧ computeSlug name query ≠ ""
    ∧ (name = "" → (computeSlug name query).length ≤ 60) := by
  have hslug : computeSlug name query = slugAmendedSpec name query := by
    rw [computeSlug, slugAmendedSpec]
    by_cases hn : name = ""
    · rw [if_neg (fun hh => hh hn), if_pos hn]
      by_cases hq : query = ""
      · rw [if_neg (fun hh => hh hq), if_pos hq]
      · rw [if_pos hq, if_neg hq]
    · rw [if_pos hn, if_neg hn]
  refine ⟨by rw [bundleDirName, hslug], ?_, ?_⟩
  · rw [computeSlug]
    by_cases hn : name = ""
    · rw [if_neg (fun hh => hh hn)]
      by_cases hq : query = ""
      · rw [if_neg (fun hh => hh hq)]
        decide
      · rw [if_pos hq]
        show (if (stripDashes (collapseRuns (lowerStr query).data)).take 60 = []
          then ("bundle" : String)
          else ⟨(stripDashes (collapseRuns (lowerStr query).data)).take 60⟩) ≠ ""
        split
        · decide
        · rename_i hs
          intro hempty
          exact hs (congrArg String.data hempty)
    · rw [if_pos hn]
      show (if stripDashes (collapseRuns name.data) = []
        then ("bundle" : String)
        else ⟨stripDashes (collapseRuns name.data)⟩) ≠ ""
      split
      · decide
      · rename_i hs
        intro hempty
        exact hs (congrArg String.data hempty)
  · intro hn
    rw [computeSlug, if_neg (fun hh => hh hn)]
    by_cases hq : query = ""
    · rw [if_neg (fun hh => hh hq)]
      decide
    · rw [if_pos hq]
      show (if (stripDashes (collapseRuns (lowerStr query).data)).take 60 = []
        then ("bundle" : String)
        else ⟨(stripDashes (collapseRuns (lowerStr query).data)).take 60⟩).length ≤ 60
      split
      · decide
      · show ((stripDashes (collapseRuns (lowerStr query).data)).take 60).length ≤ 60
        rw [List.length_take]
        exact min_le_left _ _

/-- Claim C7 amended, witness: a query with characters outside the slug
class keeps the length bound. -/
theorem bundle_dir_naming_witness :
    (computeSlug "" "Terraform & AWS!").length ≤ 60 :=
  (bundle_dir_naming "notebook-bundles" "20260101-000000" "" "Terraform & AWS!").2.2 rfl

/-- Claim C8 counterexample: a file whose text cannot be read gets hit
count 0 during scoring, but with no active pattern it is still selected,
and the run then aborts in the copy phase — the read failure does abort
the run. -/
theorem unreadable_aborts_run_cex :
    count_hits none [literalPattern "a"] = 0
    ∧ (⟨"research/v.md", true, 0, none⟩ : FileEntry).text = none
    ∧ exitCode (runMain (fun _ => fun _ => 0)
        ⟨"", false, 100, 10, "research", "out-bundles", "", "md"⟩
        ⟨true, 0, "20260102-000000", [⟨"research/v.md", true, 0, none⟩]⟩) ≠ 0 := by
  exact ⟨rfl, rfl, by decide⟩

/-- Claim C8 amended: a file whose text cannot be read yields hit count 0,
and scoring and selection continue; when at least one pattern is active
such a file is filtered out and never copied.  (Under an empty pattern
list the unreadable file can be selected, and the copy phase then aborts
the run, as the counterexample shows.) -/
theorem unreadable_zero_hits (now : ℚ) (days : ℤ) (patterns : List Pattern)
    (f : FileEntry) (hun : f.text = none) :
    count_hits f.text patterns = 0
    ∧ (mkCandidate now days patterns f).hits = 0
    ∧ (patterns ≠ [] → ∀ limit : ℤ, ∀ exts files,
        mkCandidate now days patterns f ∉
          selectedOf now days limit patterns exts files) := by
  have hcount : count_hits f.text patterns = 0 := by rw [hun, count_hits]
  have hhits : (mkCandidate now days patterns f).hits = 0 := by
    rw [mkCandidate]
    split
    · rfl
    · exact hcount
  refine ⟨hcount, hhits, ?_⟩
  intro hp limit exts files hmem
  have h1 := mem_of_mem_selectedOf hmem
  rw [filterHits, if_neg (by simpa using hp)] at h1
  have h2 := List.of_mem_filter h1
  rw [hhits] at h2
  exact absurd (of_decide_eq_true h2) (lt_irrefl 0)

/-- Claim C8 amended, witness: an unreadable file under an active pattern
is never selected. -/
theorem unreadable_zero_hits_witness :
    mkCandidate 0 365 [literalPattern "a"] ⟨"research/v.md", true, 0, none⟩ ∉
      selectedOf 0 365 50 [literalPattern "a"] [".md"]
        [⟨"research/v.md", true, 0, none⟩] :=
  (unreadable_zero_hits 0 365 [literalPattern "a"]
    ⟨"research/v.md", true, 0, none⟩ rfl).2.2 (List.cons_ne_nil _ _) 50 [".md"]
    [⟨"research/v.md", true, 0, none⟩]

/-- An allow-list entry holding a capital letter admits no file at all. -/
theorem collectCandidates_upper_entry (entry : String)
    (hup : ∃ ch ∈ entry.data, ch.isUpper = true) (now : ℚ) (days : ℤ)
    (patterns : List Pattern) (files : List FileEntry) :
    collectCandidates now days patterns [entry] files = [] := by
  rw [collectCandidates, List.filterMap_eq_nil_iff]
  intro f _
  rw [if_neg]
  intro hadm
  rw [admits, Bool.and_eq_true, Bool.and_eq_true] at hadm
  have hc := hadm.1.2
  rw [contains_iff_mem] at hc
  exact lowerStr_ne_of_upper entry hup _ (List.mem_singleton.mp hc)

/-- Claim C9: an `--ext` entry holding an uppercase letter matches no
file: suffixes are lowercased before the membership test while entries
are used verbatim, so `--ext "MD"` yields an empty candidate set whatever
files exist in the window. -/
theorem uppercase_ext_matches_nothing (entry : String)
    (hup : ∃ ch ∈ entry.data, ch.isUpper = true) :
    (∀ p : String, lowerStr p ≠ entry)
    ∧ (∀ now : ℚ, ∀ days : ℤ, ∀ patterns files,
        collectCandidates now days patterns [entry] files = [])
    ∧ parseExts "MD" = [".MD"]
    ∧ (∀ now : ℚ, ∀ days : ℤ, ∀ patterns files,
        collectCandidates now days patterns (parseExts "MD") files = []) := by
  refine ⟨lowerStr_ne_of_upper entry hup, ?_, by decide, ?_⟩
  · intro now days patterns files
    exact collectCandidates_upper_entry entry hup now days patterns files
  · intro now days patterns files
    rw [show parseExts "MD" = [".MD"] from by decide]
    refine collectCandidates_upper_entry ".MD" ?_ now days patterns files
    exact ⟨'M', by decide, by decide⟩

/-- Claim C9 witness: `--ext "MD"` rejects an existing `.md` file. -/
theorem uppercase_ext_matches_nothing_witness :
    collectCandidates 0 365 [] (parseExts "MD")
      [⟨"research/x.md", true, 0, some "text"⟩] = [] :=
  (uppercase_ext_matches_nothing ".MD" ⟨'M', by decide, by decide⟩).2.2.2
    0 365 [] [⟨"research/x.md", true, 0, some "text"⟩]

/-- A path is under itself. -/
theorem underDir_self (s : String) : underDir s s = true :=
  List.isPrefixOf_iff_prefix.mpr (List.prefix_refl _)

/-- Appending a suffix keeps a path under its own root. -/
theorem underDir_append (s t : String) : underDir s (s ++ t) = true :=
  List.isPrefixOf_iff_prefix.mpr
    (by rw [String.data_append]; exact List.prefix_append _ _)

/-- Extending a path keeps it under the same root. -/
theorem underDir_append_right (s w t : String) (h : underDir s w = true) :
    underDir s (w ++ t) = true :=
  List.isPrefixOf_iff_prefix.mpr
    (by
      rw [String.data_append]
      have hp := List.isPrefixOf_iff_prefix.mp h
      exact hp.trans (List.prefix_append _ _))

/-- Every destination the copy loop writes lies inside the bundle
directory. -/
theorem copyPhase_writes (files : List FileEntry) (bdir : String)
    (sel : List Candidate) :
    ∀ w ∈ (copyPhase files bdir sel).1, ∃ n, w = bdir ++ "/" ++ n := by
  induction sel with
  | nil =>
    intro w hw
    cases hw
  | cons c cs ih =>
    intro w hw
    rw [copyPhase] at hw
    split at hw
    · simp only at hw
      rcases List.mem_cons.mp hw with rfl | hw'
      · exact ⟨c.out_name, rfl⟩
      · exact ih w hw'
    · cases hw

/-- Claim C10: every path a run writes — the two created directories, the
copied files, `manifest.json` and `index.md` — lies under the output
root, and the filesystem outside the output root is untouched; in
particular no file under the research directory is modified, renamed or
deleted whenever the research directory is not nested inside the output
root. -/
theorem writes_confined_to_out_root (rc : String → Pattern) (a : Args)
    (inp : RunInput) :
    (∀ w ∈ writtenPaths (runMain rc a inp), underDir a.out w = true)
    ∧ (∀ fs : String → Option String, ∀ p : String, underDir a.out p = false →
        fsAfter fs (writtenPaths (runMain rc a inp)) p = fs p) := by
  have hA : ∀ w ∈ writtenPaths (runMain rc a inp), underDir a.out w = true := by
    by_cases hv : inp.validDir = false
    · intro w hw
      rw [runMain, if_pos hv] at hw
      cases hw
    · have hbdir : underDir a.out (bundleDirName a.out inp.ts a.name a.query) = true := by
        rw [bundleDirName]
        exact underDir_append_right _ _ _ (underDir_append_right _ _ _
          (underDir_append_right _ _ _ (underDir_append a.out "/")))
      have hcopy : ∀ w ∈ (copyPhase inp.files
          (bundleDirName a.out inp.ts a.name a.query)
          (selectedOf inp.now a.days a.limit
            (buildPatterns rc a.query a.regexMode) (parseExts a.ext) inp.files)).1,
          underDir a.out w = true := by
        intro w hw
        obtain ⟨n, rfl⟩ := copyPhase_writes _ _ _ w hw
        exact underDir_append_right _ _ _ (underDir_append_right _ _ _ hbdir)
      intro w hw
      rw [runMain, if_neg hv] at hw
      cases hcp : (copyPhase inp.files
          (bundleDirName a.out inp.ts a.name a.query)
          (selectedOf inp.now a.days a.limit
            (buildPatterns rc a.query a.regexMode) (parseExts a.ext) inp.files)).2 with
      | none =>
        simp only [hcp, writtenPaths] at hw
        simp only [List.mem_append, List.mem_cons, List.mem_singleton,
          List.not_mem_nil, or_false] at hw
        rcases hw with ((rfl | rfl) | hw) | (rfl | rfl)
        · exact underDir_self a.out
        · exact hbdir
        · exact hcopy w hw
        · exact underDir_append_right _ _ _ hbdir
        · exact underDir_append_right _ _ _ hbdir
      | some p =>
        simp only [hcp, writtenPaths] at hw
        simp only [List.mem_append, List.mem_cons, List.not_mem_nil, or_false] at hw
        rcases hw with (rfl | rfl) | hw
        · exact underDir_self a.out
        · exact hbdir
        · exact hcopy w hw
  refine ⟨hA, ?_⟩
  intro fs p hp
  rw [fsAfter, if_neg]
  intro hcont
  have hmem : p ∈ writtenPaths (runMain rc a inp) := List.elem_iff.mp hcont
  rw [hA p hmem] at hp
  cases hp

/-- Claim C10 witness: a research file is untouched by a concrete run. -/
theorem writes_confined_to_out_root_witness :
    fsAfter (fun _ => none)
      (writtenPaths (runMain (fun _ => fun _ => 0)
        ⟨"", false, 365, 50, "research", "notebook-bundles", "", "md,mdx"⟩
        ⟨true, 0, "20260101-000000", [⟨"research/a.md", true, 0, some "hi"⟩]⟩))
      "research/a.md" = none :=
  (writes_confined_to_out_root (fun _ => fun _ => 0)
    ⟨"", false, 365, 50, "research", "notebook-bundles", "", "md,mdx"⟩
    ⟨true, 0, "20260101-000000", [⟨"research/a.md", true, 0, some "hi"⟩]⟩).2
    (fun _ => none) "research/a.md" (by decide)
